import Mathlib

/-!
Verification of the diversity-bounded admission filter from
`searchlib/src/vespa/searchlib/attribute/diversity.hpp`
(`DiversityFilterT<Fetcher>::accepted`).

The filter state and the helpers `conditional_add` / `add` are declared in
`diversity.h`, which is not part of the available sources; they are modelled
from the specification (§3, §4.3).  The member `_seen` (a hash map from group
key to accepted count) is modelled as an association list with unique keys.
Group keys and document ids are modelled as `Nat`; the group fetcher
(`_diversity.get`) is an arbitrary function `Nat → Nat`.
All counters are `Nat`: every increment in the source is guarded by a strict
comparison against a `uint32_t` bound, so no overflow is reachable.
-/

namespace Diversity

/-- Immutable configuration of the filter: `_max_total`, `_max_per_group`,
`_cutoff_max_groups`, `_cutoff_strict` (modelled from the spec §3, §6;
the members live in `diversity.h`). -/
structure DFConfig where
  max_total : Nat
  max_per_group : Nat
  cutoff_max_groups : Nat
  cutoff_strict : Bool
  deriving DecidableEq, Repr

/-- Mutable filter state: `_total_count` and the tracked-group map `_seen`
(association list of (group key, accepted count) with unique keys). -/
structure DFState where
  total_count : Nat
  seen : List (Nat × Nat)
  deriving DecidableEq, Repr

/-- A freshly constructed filter: zero accepted, no tracked groups. -/
def initState : DFState := ⟨0, []⟩

/-- Lookup of a group key in the tracked map (`_seen.find(group)`). -/
def lookupGroup : List (Nat × Nat) → Nat → Option Nat
  | [], _ => none
  | (k, c) :: rest, g => if k = g then some c else lookupGroup rest g

/-- Overwrite the count stored for a key (write-back through the reference
taken by `conditional_add`); appends if the key is absent (never happens
on the paths where it is used). -/
def setGroup : List (Nat × Nat) → Nat → Nat → List (Nat × Nat)
  | [], g, c => [(g, c)]
  | (k, c0) :: rest, g, c =>
    if k = g then (g, c) :: rest else (k, c0) :: setGroup rest g c

/-- `_seen[group]`: hash-map `operator[]`, which default-inserts the key
with count `0` when absent and otherwise leaves the map unchanged. -/
def bracket (seen : List (Nat × Nat)) (g : Nat) : List (Nat × Nat) :=
  match lookupGroup seen g with
  | some _ => seen
  | none => seen ++ [(g, 0)]

/-- Count currently associated with a group (the value `operator[]` yields). -/
def countOf (seen : List (Nat × Nat)) (g : Nat) : Nat :=
  (lookupGroup seen g).getD 0

/-- Modelled from the spec: `add()` from `diversity.h` (§4.3 step 5,
uncapped admission) — increment `_total_count` and return `true`. -/
def add (s : DFState) : Bool × DFState :=
  (true, { s with total_count := s.total_count + 1 })

/-- Modelled from the spec: `conditional_add(count&)` from `diversity.h`
(§4.3 step 4, conditional admission) — if the group's current count is
below `_max_per_group`, increment that count and `_total_count` and return
`true`, else return `false` with no state change.  `g` records which map
entry the C++ reference points at. -/
def conditional_add (cfg : DFConfig) (s : DFState) (g : Nat) (c : Nat) :
    Bool × DFState :=
  if c < cfg.max_per_group then
    (true, { total_count := s.total_count + 1, seen := setGroup s.seen g (c + 1) })
  else
    (false, s)

/-- `DiversityFilterT::accepted(docId)` from `diversity.hpp`, lines 36-51,
transcribed branch for branch.  `fetch` is `_diversity.get`. -/
def accepted (cfg : DFConfig) (fetch : Nat → Nat) (s : DFState) (docId : Nat) :
    Bool × DFState :=
  if s.total_count < cfg.max_total then
    if s.seen.length < cfg.cutoff_max_groups ∨ cfg.cutoff_strict = true then
      let group := fetch docId
      if s.seen.length < cfg.cutoff_max_groups then
        conditional_add cfg { s with seen := bracket s.seen group } group
          (countOf s.seen group)
      else
        match lookupGroup s.seen group with
        | none => add s
        | some c => conditional_add cfg s group c
    else
      if cfg.cutoff_strict = false then add s
      else (false, s)
  else
    (false, s)

/-- Feed a sequence of document ids to the filter starting from state `s`;
returns the list of admission decisions and the final state. -/
def runFrom (cfg : DFConfig) (fetch : Nat → Nat) (s : DFState) :
    List Nat → List Bool × DFState
  | [] => ([], s)
  | d :: rest =>
    let r := accepted cfg fetch s d
    let rr := runFrom cfg fetch r.2 rest
    (r.1 :: rr.1, rr.2)

/-- Feed a sequence of document ids to a freshly constructed filter. -/
def run (cfg : DFConfig) (fetch : Nat → Nat) (docs : List Nat) :
    List Bool × DFState :=
  runFrom cfg fetch initState docs

/-- Number of calls in `docs` (fed from state `s`) that return `true` for a
document whose fetched group is `g`. -/
def acceptedFor (cfg : DFConfig) (fetch : Nat → Nat) (s : DFState) :
    List Nat → Nat → Nat
  | [], _ => 0
  | d :: rest, g =>
    let r := accepted cfg fetch s d
    (if r.1 = true ∧ fetch d = g then 1 else 0) + acceptedFor cfg fetch r.2 rest g

end Diversity

namespace Diversity

/-! ### Unfolding lemmas for single calls -/

theorem runFrom_cons (cfg : DFConfig) (fetch : Nat → Nat) (s : DFState)
    (d : Nat) (rest : List Nat) :
    runFrom cfg fetch s (d :: rest) =
      ((accepted cfg fetch s d).1 ::
        (runFrom cfg fetch (accepted cfg fetch s d).2 rest).1,
       (runFrom cfg fetch (accepted cfg fetch s d).2 rest).2) := rfl

theorem acceptedFor_cons (cfg : DFConfig) (fetch : Nat → Nat) (s : DFState)
    (d : Nat) (rest : List Nat) (g : Nat) :
    acceptedFor cfg fetch s (d :: rest) g =
      (if (accepted cfg fetch s d).1 = true ∧ fetch d = g then 1 else 0) +
        acceptedFor cfg fetch (accepted cfg fetch s d).2 rest g := rfl

/-- Branch: global cap reached — reject, state untouched. -/
theorem step_capped {cfg : DFConfig} {s : DFState} (fetch : Nat → Nat) (d : Nat)
    (h : ¬ s.total_count < cfg.max_total) :
    accepted cfg fetch s d = (false, s) := by
  simp [accepted, h]

/-- Branch: room in the tracked map — `conditional_add(_seen[group])`. -/
theorem step_room {cfg : DFConfig} {s : DFState} (fetch : Nat → Nat) (d : Nat)
    (h1 : s.total_count < cfg.max_total)
    (h2 : s.seen.length < cfg.cutoff_max_groups) :
    accepted cfg fetch s d =
      conditional_add cfg { s with seen := bracket s.seen (fetch d) } (fetch d)
        (countOf s.seen (fetch d)) := by
  simp [accepted, h1, h2]

/-- Branch: map full, strict, group already tracked — conditional admission. -/
theorem step_full_strict_found {cfg : DFConfig} {s : DFState}
    (fetch : Nat → Nat) (d : Nat) {c : Nat}
    (h1 : s.total_count < cfg.max_total)
    (h2 : ¬ s.seen.length < cfg.cutoff_max_groups)
    (hs : cfg.cutoff_strict = true)
    (hc : lookupGroup s.seen (fetch d) = some c) :
    accepted cfg fetch s d = conditional_add cfg s (fetch d) c := by
  simp [accepted, h1, h2, hs, hc]

/-- Branch: map full, strict, group not tracked — uncapped `add()`. -/
theorem step_full_strict_new {cfg : DFConfig} {s : DFState}
    (fetch : Nat → Nat) (d : Nat)
    (h1 : s.total_count < cfg.max_total)
    (h2 : ¬ s.seen.length < cfg.cutoff_max_groups)
    (hs : cfg.cutoff_strict = true)
    (hc : lookupGroup s.seen (fetch d) = none) :
    accepted cfg fetch s d = add s := by
  simp [accepted, h1, h2, hs, hc]

/-- Branch: map full, non-strict — uncapped `add()`, fetcher never consulted. -/
theorem step_full_nonstrict {cfg : DFConfig} {s : DFState}
    (fetch : Nat → Nat) (d : Nat)
    (h1 : s.total_count < cfg.max_total)
    (h2 : ¬ s.seen.length < cfg.cutoff_max_groups)
    (hs : cfg.cutoff_strict = false) :
    accepted cfg fetch s d = add s := by
  simp [accepted, h1, h2, hs]

end Diversity

namespace Diversity

/-! ### Association-list lemmas -/

theorem lookupGroup_append (l1 l2 : List (Nat × Nat)) (g : Nat) :
    lookupGroup (l1 ++ l2) g =
      match lookupGroup l1 g with
      | some c => some c
      | none => lookupGroup l2 g := by
  induction l1 with
  | nil => simp [lookupGroup]
  | cons p rest ih =>
    obtain ⟨k, c⟩ := p
    by_cases hk : k = g <;> simp [lookupGroup, hk, ih]

theorem lookupGroup_eq_none_iff (l : List (Nat × Nat)) (g : Nat) :
    lookupGroup l g = none ↔ g ∉ l.map Prod.fst := by
  induction l with
  | nil => simp [lookupGroup]
  | cons p rest ih =>
    obtain ⟨k, c⟩ := p
    by_cases hk : k = g
    · subst hk; simp [lookupGroup]
    · simp [lookupGroup, hk, ih]
      exact fun _ h => hk h.symm

theorem lookupGroup_setGroup_self (l : List (Nat × Nat)) (g c : Nat) :
    lookupGroup (setGroup l g c) g = some c := by
  induction l with
  | nil => simp [setGroup, lookupGroup]
  | cons p rest ih =>
    obtain ⟨k, c0⟩ := p
    by_cases hk : k = g <;> simp [setGroup, lookupGroup, hk, ih]

theorem lookupGroup_setGroup_ne (l : List (Nat × Nat)) {g g' : Nat} (c : Nat)
    (h : g' ≠ g) :
    lookupGroup (setGroup l g c) g' = lookupGroup l g' := by
  induction l with
  | nil => simp [setGroup, lookupGroup, h, Ne.symm h]
  | cons p rest ih =>
    obtain ⟨k, c0⟩ := p
    by_cases hk : k = g
    · subst hk
      simp [setGroup, lookupGroup, Ne.symm h, h]
    · by_cases hk' : k = g'
      · subst hk'
        simp [setGroup, lookupGroup, h, hk]
      · simp [setGroup, lookupGroup, hk, hk', ih]

theorem setGroup_map_fst (l : List (Nat × Nat)) {g : Nat} (c : Nat)
    {c0 : Nat} (h : lookupGroup l g = some c0) :
    (setGroup l g c).map Prod.fst = l.map Prod.fst := by
  induction l with
  | nil => simp [lookupGroup] at h
  | cons p rest ih =>
    obtain ⟨k, ck⟩ := p
    by_cases hk : k = g
    · subst hk; simp [setGroup]
    · simp [lookupGroup, hk] at h
      simp [setGroup, hk, ih h]

theorem bracket_found {l : List (Nat × Nat)} {g c : Nat}
    (h : lookupGroup l g = some c) : bracket l g = l := by
  simp [bracket, h]

theorem bracket_new {l : List (Nat × Nat)} {g : Nat}
    (h : lookupGroup l g = none) : bracket l g = l ++ [(g, 0)] := by
  simp [bracket, h]

theorem lookupGroup_bracket (l : List (Nat × Nat)) (g g' : Nat) :
    lookupGroup (bracket l g) g' =
      if g' = g then some (countOf l g) else lookupGroup l g' := by
  rcases h : lookupGroup l g with _ | c
  · rw [bracket_new h, lookupGroup_append]
    by_cases hg : g' = g
    · subst hg; simp [h, lookupGroup, countOf]
    · rcases h' : lookupGroup l g' with _ | c' <;>
        simp [h', lookupGroup, hg, Ne.symm hg]
  · rw [bracket_found h]
    by_cases hg : g' = g
    · subst hg; simp [h, countOf]
    · simp [hg]

theorem bracket_map_fst (l : List (Nat × Nat)) (g : Nat) :
    (bracket l g).map Prod.fst =
      if lookupGroup l g = none then l.map Prod.fst ++ [g]
      else l.map Prod.fst := by
  rcases h : lookupGroup l g with _ | c
  · rw [bracket_new h]; simp
  · rw [bracket_found h]; simp [h]

theorem countOf_eq_of_lookup {l : List (Nat × Nat)} {g c : Nat}
    (h : lookupGroup l g = some c) : countOf l g = c := by
  simp [countOf, h]

end Diversity

namespace Diversity

theorem bracket_length (l : List (Nat × Nat)) (g : Nat) :
    (bracket l g).length ≤ l.length + 1 := by
  rcases h : lookupGroup l g with _ | c
  · rw [bracket_new h]; simp
  · rw [bracket_found h]; omega

theorem setGroup_length {l : List (Nat × Nat)} {g c0 : Nat} (c : Nat)
    (h : lookupGroup l g = some c0) :
    (setGroup l g c).length = l.length := by
  have hm := setGroup_map_fst l c h
  calc (setGroup l g c).length
      = ((setGroup l g c).map Prod.fst).length := by simp
    _ = (l.map Prod.fst).length := by rw [hm]
    _ = l.length := by simp

/-! ### Single-call invariants -/

/-- One call never pushes `_total_count` past `_max_total`. -/
theorem accepted_total_le {cfg : DFConfig} {s : DFState} (fetch : Nat → Nat)
    (d : Nat) (h : s.total_count ≤ cfg.max_total) :
    (accepted cfg fetch s d).2.total_count ≤ cfg.max_total := by
  by_cases h1 : s.total_count < cfg.max_total
  · by_cases h2 : s.seen.length < cfg.cutoff_max_groups
    · rw [step_room fetch d h1 h2]
      unfold conditional_add
      split
      · simp only []
        omega
      · exact h
    · rcases hs : cfg.cutoff_strict with _ | _
      · rw [step_full_nonstrict fetch d h1 h2 hs]
        simp only [add]
        omega
      · rcases hl : lookupGroup s.seen (fetch d) with _ | c
        · rw [step_full_strict_new fetch d h1 h2 hs hl]
          simp only [add]
          omega
        · rw [step_full_strict_found fetch d h1 h2 hs hl]
          unfold conditional_add
          split
          · simp only []
            omega
          · exact h
  · rw [step_capped fetch d h1]; exact h

/-- One call keeps the tracked map within `_cutoff_max_groups` entries. -/
theorem accepted_seen_le {cfg : DFConfig} {s : DFState} (fetch : Nat → Nat)
    (d : Nat) (h : s.seen.length ≤ cfg.cutoff_max_groups) :
    (accepted cfg fetch s d).2.seen.length ≤ cfg.cutoff_max_groups := by
  by_cases h1 : s.total_count < cfg.max_total
  · by_cases h2 : s.seen.length < cfg.cutoff_max_groups
    · rw [step_room fetch d h1 h2]
      unfold conditional_add
      split
      · have hb : lookupGroup (bracket s.seen (fetch d)) (fetch d) =
            some (countOf s.seen (fetch d)) := by
          rw [lookupGroup_bracket]; simp
        simp only []
        rw [setGroup_length _ hb]
        have := bracket_length s.seen (fetch d)
        omega
      · simp only []
        have := bracket_length s.seen (fetch d)
        omega
    · rcases hs : cfg.cutoff_strict with _ | _
      · rw [step_full_nonstrict fetch d h1 h2 hs]
        exact h
      · rcases hl : lookupGroup s.seen (fetch d) with _ | c
        · rw [step_full_strict_new fetch d h1 h2 hs hl]
          exact h
        · rw [step_full_strict_found fetch d h1 h2 hs hl]
          unfold conditional_add
          split
          · simp only []
            rw [setGroup_length _ hl]
            exact h
          · exact h
  · rw [step_capped fetch d h1]; exact h

/-- A rejecting call leaves `_total_count` and every stored count alone. -/
theorem accepted_false_frame {cfg : DFConfig} {s : DFState} (fetch : Nat → Nat)
    (d : Nat) (h : (accepted cfg fetch s d).1 = false) :
    (accepted cfg fetch s d).2.total_count = s.total_count ∧
    ∀ g c, lookupGroup s.seen g = some c →
      lookupGroup (accepted cfg fetch s d).2.seen g = some c := by
  by_cases h1 : s.total_count < cfg.max_total
  · by_cases h2 : s.seen.length < cfg.cutoff_max_groups
    · rw [step_room fetch d h1 h2] at h ⊢
      unfold conditional_add at h ⊢
      by_cases hc0 : countOf s.seen (fetch d) < cfg.max_per_group
      · rw [if_pos hc0] at h
        simp at h
      · rw [if_neg hc0]
        refine ⟨rfl, ?_⟩
        intro g c hc
        show lookupGroup (bracket s.seen (fetch d)) g = some c
        rw [lookupGroup_bracket]
        by_cases hg : g = fetch d
        · subst hg
          rw [if_pos rfl, countOf_eq_of_lookup hc]
        · rw [if_neg hg]
          exact hc
    · rcases hs : cfg.cutoff_strict with _ | _
      · rw [step_full_nonstrict fetch d h1 h2 hs] at h
        simp [add] at h
      · rcases hl : lookupGroup s.seen (fetch d) with _ | c
        · rw [step_full_strict_new fetch d h1 h2 hs hl] at h
          simp [add] at h
        · rw [step_full_strict_found fetch d h1 h2 hs hl] at h ⊢
          unfold conditional_add at h ⊢
          by_cases hc0 : c < cfg.max_per_group
          · rw [if_pos hc0] at h
            simp at h
          · rw [if_neg hc0]
            exact ⟨rfl, fun g c hc => hc⟩
  · rw [step_capped fetch d h1]
    exact ⟨rfl, fun g c hc => hc⟩

/-- `_total_count` stays equal or grows by exactly one per call. -/
theorem accepted_total_cases {cfg : DFConfig} {s : DFState} (fetch : Nat → Nat)
    (d : Nat) :
    (accepted cfg fetch s d).2.total_count = s.total_count ∨
    (accepted cfg fetch s d).2.total_count = s.total_count + 1 := by
  by_cases h1 : s.total_count < cfg.max_total
  · by_cases h2 : s.seen.length < cfg.cutoff_max_groups
    · rw [step_room fetch d h1 h2]
      unfold conditional_add
      split
      · right; rfl
      · left; rfl
    · rcases hs : cfg.cutoff_strict with _ | _
      · rw [step_full_nonstrict fetch d h1 h2 hs]
        right; rfl
      · rcases hl : lookupGroup s.seen (fetch d) with _ | c
        · rw [step_full_strict_new fetch d h1 h2 hs hl]
          right; rfl
        · rw [step_full_strict_found fetch d h1 h2 hs hl]
          unfold conditional_add
          split
          · right; rfl
          · left; rfl
  · rw [step_capped fetch d h1]
    left; rfl

/-! ### Sequence-level lemmas -/

theorem runFrom_total_le {cfg : DFConfig} (fetch : Nat → Nat)
    (docs : List Nat) :
    ∀ s : DFState, s.total_count ≤ cfg.max_total →
      (runFrom cfg fetch s docs).2.total_count ≤ cfg.max_total := by
  induction docs with
  | nil => intro s h; exact h
  | cons d rest ih =>
    intro s h
    rw [runFrom_cons]
    exact ih _ (accepted_total_le fetch d h)

theorem runFrom_seen_le {cfg : DFConfig} (fetch : Nat → Nat)
    (docs : List Nat) :
    ∀ s : DFState, s.seen.length ≤ cfg.cutoff_max_groups →
      (runFrom cfg fetch s docs).2.seen.length ≤ cfg.cutoff_max_groups := by
  induction docs with
  | nil => intro s h; exact h
  | cons d rest ih =>
    intro s h
    rw [runFrom_cons]
    exact ih _ (accepted_seen_le fetch d h)

/-- Once the global cap is reached, the filter is inert: every further call
returns `false` and the state never changes. -/
theorem runFrom_capped {cfg : DFConfig} (fetch : Nat → Nat) (docs : List Nat) :
    ∀ s : DFState, cfg.max_total ≤ s.total_count →
      runFrom cfg fetch s docs = (List.replicate docs.length false, s) := by
  induction docs with
  | nil => intro s h; simp [runFrom]
  | cons d rest ih =>
    intro s h
    rw [runFrom_cons, step_capped fetch d (Nat.not_lt.2 h)]
    simp [ih s h, List.replicate_succ]

end Diversity

namespace Diversity

/-- If every call made in a state whose tracked map satisfies `Q` behaves as a
pure counter (accept while below the global cap, map untouched), then a whole
run from such a state behaves as a pure counter. -/
theorem runFrom_counter {cfg : DFConfig} {fetch : Nat → Nat}
    (Q : List (Nat × Nat) → Prop)
    (hstep : ∀ (s : DFState) (d : Nat), Q s.seen →
      accepted cfg fetch s d =
        if s.total_count < cfg.max_total
        then (true, ⟨s.total_count + 1, s.seen⟩) else (false, s)) :
    ∀ (docs : List Nat) (s : DFState), Q s.seen →
      (runFrom cfg fetch s docs).2.seen = s.seen ∧
      ∀ i, i < docs.length →
        (runFrom cfg fetch s docs).1.get? i =
          some (decide (s.total_count + i < cfg.max_total)) := by
  intro docs
  induction docs with
  | nil =>
    intro s hQ
    exact ⟨rfl, fun i hi => absurd hi (by simp)⟩
  | cons d rest ih =>
    intro s hQ
    rw [runFrom_cons, hstep s d hQ]
    by_cases ht : s.total_count < cfg.max_total
    · rw [if_pos ht]
      obtain ⟨hseen, hres⟩ := ih ⟨s.total_count + 1, s.seen⟩ hQ
      refine ⟨hseen, ?_⟩
      intro i hi
      match i with
      | 0 =>
        simp [ht]
      | Nat.succ j =>
        have hj : j < rest.length := by
          simp at hi
          omega
        rw [List.get?_cons_succ,
          show s.total_count + (j + 1) = s.total_count + 1 + j by omega]
        exact hres j hj
    · rw [if_neg ht]
      obtain ⟨hseen, hres⟩ := ih s hQ
      have hfalse : ∀ k, decide (s.total_count + k < cfg.max_total) = false := by
        intro k
        simp
        omega
      refine ⟨hseen, ?_⟩
      intro i hi
      match i with
      | 0 =>
        rw [List.get?_cons_zero, hfalse 0]
      | Nat.succ j =>
        have hj : j < rest.length := by
          simp at hi
          omega
        rw [List.get?_cons_succ, hres j hj, hfalse j, hfalse (j + 1)]

/-- C1: for every configuration and call sequence, `_total_count` never
exceeds `_max_total`, and once it has reached `_max_total` every subsequent
call returns `false`, permanently — the global-cap state is absorbing. -/
theorem C1_global_cap_absorbing (cfg : DFConfig) (fetch : Nat → Nat)
    (docs more : List Nat) :
    (run cfg fetch docs).2.total_count ≤ cfg.max_total ∧
    (cfg.max_total ≤ (run cfg fetch docs).2.total_count →
      (runFrom cfg fetch (run cfg fetch docs).2 more).1 =
        List.replicate more.length false) := by
  constructor
  · exact runFrom_total_le fetch docs initState (Nat.zero_le _)
  · intro h
    rw [runFrom_capped fetch more ((run cfg fetch docs).2) h]

theorem C1_global_cap_absorbing_w :
    (run ⟨1, 1, 1, true⟩ id [5]).2.total_count ≤ 1 ∧
    (runFrom ⟨1, 1, 1, true⟩ id (run ⟨1, 1, 1, true⟩ id [5]).2 [6, 7]).1 =
      List.replicate 2 false :=
  ⟨(C1_global_cap_absorbing ⟨1, 1, 1, true⟩ id [5] [6, 7]).1,
   (C1_global_cap_absorbing ⟨1, 1, 1, true⟩ id [5] [6, 7]).2 (by decide)⟩

/-- C3: after any call sequence from a fresh filter, the tracked map holds at
most `_cutoff_max_groups` entries, however many distinct groups appeared. -/
theorem C3_tracked_bound (cfg : DFConfig) (fetch : Nat → Nat)
    (docs : List Nat) :
    (run cfg fetch docs).2.seen.length ≤ cfg.cutoff_max_groups :=
  runFrom_seen_le fetch docs initState (Nat.zero_le _)

/-- C4: each call leaves `_total_count` unchanged or increments it by exactly
one; a call returning `false` changes neither `_total_count` nor any stored
group count; a call rejected by the global cap leaves the state untouched. -/
theorem C4_monotone_frame (cfg : DFConfig) (fetch : Nat → Nat) (s : DFState)
    (d : Nat) :
    ((accepted cfg fetch s d).2.total_count = s.total_count ∨
     (accepted cfg fetch s d).2.total_count = s.total_count + 1) ∧
    ((accepted cfg fetch s d).1 = false →
      (accepted cfg fetch s d).2.total_count = s.total_count ∧
      ∀ g c, lookupGroup s.seen g = some c →
        lookupGroup (accepted cfg fetch s d).2.seen g = some c) ∧
    (cfg.max_total ≤ s.total_count → accepted cfg fetch s d = (false, s)) :=
  ⟨accepted_total_cases fetch d,
   fun h => accepted_false_frame fetch d h,
   fun h => step_capped fetch d (Nat.not_lt.2 h)⟩

theorem C4_monotone_frame_w :
    ((accepted ⟨0, 1, 1, true⟩ id ⟨0, [(7, 1)]⟩ 3).2.total_count = 0 ∧
      lookupGroup (accepted ⟨0, 1, 1, true⟩ id ⟨0, [(7, 1)]⟩ 3).2.seen 7 =
        some 1) ∧
    accepted ⟨0, 1, 1, true⟩ id ⟨0, [(7, 1)]⟩ 3 = (false, ⟨0, [(7, 1)]⟩) := by
  have h := C4_monotone_frame ⟨0, 1, 1, true⟩ id ⟨0, [(7, 1)]⟩ 3
  exact ⟨⟨(h.2.1 (by decide)).1, (h.2.1 (by decide)).2 7 1 (by decide)⟩,
         h.2.2 (by decide)⟩

/-- C5: with `_cutoff_strict = false` and the tracked map full, every call is
accepted until `_total_count` reaches `_max_total` — the map never changes
and neither the fetcher's answer nor any per-group count influences the
decision (the statement holds for every `fetch` and every map content). -/
theorem C5_nonstrict_degradation (cfg : DFConfig) (fetch : Nat → Nat)
    (s : DFState) (docs : List Nat)
    (hstrict : cfg.cutoff_strict = false)
    (hfull : cfg.cutoff_max_groups ≤ s.seen.length) :
    (runFrom cfg fetch s docs).2.seen = s.seen ∧
    ∀ i, i < docs.length →
      (runFrom cfg fetch s docs).1.get? i =
        some (decide (s.total_count + i < cfg.max_total)) := by
  refine runFrom_counter (fun seen => cfg.cutoff_max_groups ≤ seen.length)
    ?_ docs s hfull
  intro s' d hQ
  by_cases ht : s'.total_count < cfg.max_total
  · rw [if_pos ht, step_full_nonstrict fetch d ht (Nat.not_lt.2 hQ) hstrict]
    rfl
  · rw [if_neg ht, step_capped fetch d ht]

theorem C5_nonstrict_degradation_w :
    (runFrom ⟨2, 1, 1, false⟩ id ⟨0, [(0, 1)]⟩ [0, 0, 0]).2.seen = [(0, 1)] ∧
    (runFrom ⟨2, 1, 1, false⟩ id ⟨0, [(0, 1)]⟩ [0, 0, 0]).1.get? 2 =
      some (decide (0 + 2 < 2)) :=
  ⟨(C5_nonstrict_degradation ⟨2, 1, 1, false⟩ id ⟨0, [(0, 1)]⟩ [0, 0, 0]
      rfl (by decide)).1,
   (C5_nonstrict_degradation ⟨2, 1, 1, false⟩ id ⟨0, [(0, 1)]⟩ [0, 0, 0]
      rfl (by decide)).2 2 (by decide)⟩

/-- C6: with `_cutoff_strict = true`, a full tracked map and an untracked
group, the call is accepted uncapped (subject only to the global cap), the
group is not inserted and no per-group cap is consulted. -/
theorem C6_overflow_new_group_uncapped (cfg : DFConfig) (fetch : Nat → Nat)
    (s : DFState) (d : Nat)
    (hstrict : cfg.cutoff_strict = true)
    (htot : s.total_count < cfg.max_total)
    (hfull : s.seen.length = cfg.cutoff_max_groups)
    (hnew : lookupGroup s.seen (fetch d) = none) :
    accepted cfg fetch s d = (true, ⟨s.total_count + 1, s.seen⟩) := by
  rw [step_full_strict_new fetch d htot (by omega) hstrict hnew]
  rfl

theorem C6_overflow_new_group_uncapped_w :
    accepted ⟨5, 1, 1, true⟩ id ⟨1, [(0, 1)]⟩ 3 = (true, ⟨2, [(0, 1)]⟩) :=
  C6_overflow_new_group_uncapped ⟨5, 1, 1, true⟩ id ⟨1, [(0, 1)]⟩ 3
    rfl (by decide) rfl (by decide)

/-- C7: with `max_total = 5`, `max_per_group = 2`, `max_tracked_groups = 2`,
strict overflow, the group sequence `[A, A, A, B, B, C, C]` yields the
acceptance trace `[true, true, false, true, true, true, false]`. -/
theorem C7_concrete_trace :
    (run ⟨5, 2, 2, true⟩ id [0, 0, 0, 1, 1, 2, 2]).1 =
      [true, true, false, true, true, true, false] := by
  decide

/-- C8: with `_cutoff_strict = false` and a tracked group already at its
per-group cap, the candidate is rejected while the tracked map still has
room, and accepted once the map is full — degradation starts exactly when
the map fills up, not earlier. -/
theorem C8_room_keeps_accounting (cfg : DFConfig) (fetch : Nat → Nat)
    (s : DFState) (d : Nat) (c : Nat)
    (hstrict : cfg.cutoff_strict = false)
    (htot : s.total_count < cfg.max_total)
    (hc : lookupGroup s.seen (fetch d) = some c)
    (hcap : cfg.max_per_group ≤ c) :
    (s.seen.length < cfg.cutoff_max_groups →
      accepted cfg fetch s d = (false, s)) ∧
    (cfg.cutoff_max_groups ≤ s.seen.length →
      accepted cfg fetch s d = (true, ⟨s.total_count + 1, s.seen⟩)) := by
  constructor
  · intro hroom
    rw [step_room fetch d htot hroom, countOf_eq_of_lookup hc,
      bracket_found hc]
    unfold conditional_add
    rw [if_neg (Nat.not_lt.2 hcap)]
  · intro hfull
    rw [step_full_nonstrict fetch d htot (Nat.not_lt.2 hfull) hstrict]
    rfl

theorem C8_room_keeps_accounting_w :
    accepted ⟨5, 1, 2, false⟩ id ⟨1, [(0, 1)]⟩ 0 = (false, ⟨1, [(0, 1)]⟩) ∧
    accepted ⟨5, 1, 1, false⟩ id ⟨1, [(0, 1)]⟩ 0 = (true, ⟨2, [(0, 1)]⟩) :=
  ⟨(C8_room_keeps_accounting ⟨5, 1, 2, false⟩ id ⟨1, [(0, 1)]⟩ 0 1
      rfl (by decide) (by decide) (by decide)).1 (by decide),
   (C8_room_keeps_accounting ⟨5, 1, 1, false⟩ id ⟨1, [(0, 1)]⟩ 0 1
      rfl (by decide) (by decide) (by decide)).2 (by decide)⟩

/-- C9: with `_cutoff_max_groups = 0` every candidate falls to the overflow
branch at once: whatever the overflow policy, the map stays empty and the
call at position `i` returns `true` exactly while `_total_count` (= `i`) is
below `_max_total`; every call returns a boolean, never an error. -/
theorem C9_zero_tracked (cfg : DFConfig) (fetch : Nat → Nat) (docs : List Nat)
    (hzero : cfg.cutoff_max_groups = 0) :
    (run cfg fetch docs).2.seen = [] ∧
    ∀ i, i < docs.length →
      (run cfg fetch docs).1.get? i = some (decide (i < cfg.max_total)) := by
  have hstep : ∀ (s : DFState) (d : Nat), s.seen = [] →
      accepted cfg fetch s d =
        if s.total_count < cfg.max_total
        then (true, ⟨s.total_count + 1, s.seen⟩) else (false, s) := by
    intro s d hQ
    have h2 : ¬ s.seen.length < cfg.cutoff_max_groups := by
      rw [hzero]
      omega
    by_cases ht : s.total_count < cfg.max_total
    · rw [if_pos ht]
      rcases hs : cfg.cutoff_strict with _ | _
      · rw [step_full_nonstrict fetch d ht h2 hs]
        rfl
      · have hl : lookupGroup s.seen (fetch d) = none := by
          rw [hQ]
          rfl
        rw [step_full_strict_new fetch d ht h2 hs hl]
        rfl
    · rw [if_neg ht, step_capped fetch d ht]
  obtain ⟨h1, h2⟩ :=
    runFrom_counter (fun seen => seen = []) hstep docs initState rfl
  refine ⟨h1, fun i hi => ?_⟩
  have h3 := h2 i hi
  simpa [run, initState] using h3

theorem C9_zero_tracked_w :
    (run ⟨2, 1, 0, true⟩ id [0, 0, 0]).2.seen = [] ∧
    (run ⟨2, 1, 0, true⟩ id [0, 0, 0]).1.get? 2 = some (decide (2 < 2)) :=
  ⟨(C9_zero_tracked ⟨2, 1, 0, true⟩ id [0, 0, 0] rfl).1,
   (C9_zero_tracked ⟨2, 1, 0, true⟩ id [0, 0, 0] rfl).2 2 (by decide)⟩

/-- C10: with room in the map, an untracked group and `_max_per_group = 0`,
the call returns `false` yet `_seen[group]` has already inserted the group
with count `0` — rejection can grow the tracked map by one entry. -/
theorem C10_reject_grows_map (cfg : DFConfig) (fetch : Nat → Nat)
    (s : DFState) (d : Nat)
    (htot : s.total_count < cfg.max_total)
    (hroom : s.seen.length < cfg.cutoff_max_groups)
    (hnew : lookupGroup s.seen (fetch d) = none)
    (hmpg : cfg.max_per_group = 0) :
    accepted cfg fetch s d =
      (false, ⟨s.total_count, s.seen ++ [(fetch d, 0)]⟩) ∧
    lookupGroup (accepted cfg fetch s d).2.seen (fetch d) = some 0 := by
  have hcount : countOf s.seen (fetch d) = 0 := by
    simp [countOf, hnew]
  have hmain : accepted cfg fetch s d =
      (false, ⟨s.total_count, s.seen ++ [(fetch d, 0)]⟩) := by
    rw [step_room fetch d htot hroom, bracket_new hnew, hcount]
    unfold conditional_add
    rw [hmpg]
    rfl
  refine ⟨hmain, ?_⟩
  rw [hmain]
  show lookupGroup (s.seen ++ [(fetch d, 0)]) (fetch d) = some 0
  rw [lookupGroup_append, hnew]
  simp [lookupGroup]

theorem C10_reject_grows_map_w :
    accepted ⟨5, 0, 2, true⟩ id ⟨0, []⟩ 7 = (false, ⟨0, [(7, 0)]⟩) ∧
    lookupGroup (accepted ⟨5, 0, 2, true⟩ id ⟨0, []⟩ 7).2.seen 7 = some 0 :=
  C10_reject_grows_map ⟨5, 0, 2, true⟩ id ⟨0, []⟩ 7
    (by decide) (by decide) rfl rfl

end Diversity

namespace Diversity

theorem countOf_le {seen : List (Nat × Nat)} {mpg : Nat}
    (hcnt : ∀ g c, lookupGroup seen g = some c → c ≤ mpg) (g : Nat) :
    countOf seen g ≤ mpg := by
  rcases hl : lookupGroup seen g with _ | c
  · simp [countOf, hl]
  · rw [countOf_eq_of_lookup hl]
    exact hcnt g c hl

/-- `_seen[group]` preserves the tracking invariant: keys stay duplicate-free
and inside `gs`, stored counts stay within `mpg`, and no count changes. -/
theorem bracket_invariant (mpg : Nat) {seen : List (Nat × Nat)} {g0 : Nat}
    (gs : List Nat) (hg0 : g0 ∈ gs)
    (hnd : (seen.map Prod.fst).Nodup)
    (hsub : ∀ k ∈ seen.map Prod.fst, k ∈ gs)
    (hcnt : ∀ g c, lookupGroup seen g = some c → c ≤ mpg) :
    ((bracket seen g0).map Prod.fst).Nodup ∧
    (∀ k ∈ (bracket seen g0).map Prod.fst, k ∈ gs) ∧
    (∀ g c, lookupGroup (bracket seen g0) g = some c → c ≤ mpg) ∧
    (∀ g, countOf (bracket seen g0) g = countOf seen g) := by
  refine ⟨?_, ?_, ?_, ?_⟩
  · rw [bracket_map_fst]
    split
    · rename_i h
      rw [List.nodup_append]
      refine ⟨hnd, List.nodup_singleton _, ?_⟩
      intro a ha hb
      rw [List.mem_singleton] at hb
      subst hb
      exact (lookupGroup_eq_none_iff seen _).1 h ha
    · exact hnd
  · intro k hk
    rw [bracket_map_fst] at hk
    by_cases h : lookupGroup seen g0 = none
    · rw [if_pos h] at hk
      rcases List.mem_append.1 hk with hk | hk
      · exact hsub k hk
      · rw [List.mem_singleton] at hk
        subst hk
        exact hg0
    · rw [if_neg h] at hk
      exact hsub k hk
  · intro g c hgc
    rw [lookupGroup_bracket] at hgc
    by_cases hg : g = g0
    · rw [if_pos hg] at hgc
      have hce := Option.some.inj hgc
      exact hce ▸ countOf_le hcnt g0
    · rw [if_neg hg] at hgc
      exact hcnt g c hgc
  · intro g
    unfold countOf
    rw [lookupGroup_bracket]
    by_cases hg : g = g0
    · rw [if_pos hg, hg]
      simp [countOf]
    · rw [if_neg hg]

/-- Writing back an updated count for a tracked key preserves the tracking
invariant and changes exactly that key's count. -/
theorem setGroup_invariant (mpg : Nat) {seen : List (Nat × Nat)}
    {g0 c0 : Nat} {cNew : Nat} (gs : List Nat)
    (hl : lookupGroup seen g0 = some c0)
    (hnd : (seen.map Prod.fst).Nodup)
    (hsub : ∀ k ∈ seen.map Prod.fst, k ∈ gs)
    (hcnt : ∀ g c, lookupGroup seen g = some c → c ≤ mpg)
    (hNew : cNew ≤ mpg) :
    ((setGroup seen g0 cNew).map Prod.fst).Nodup ∧
    (∀ k ∈ (setGroup seen g0 cNew).map Prod.fst, k ∈ gs) ∧
    (∀ g c, lookupGroup (setGroup seen g0 cNew) g = some c → c ≤ mpg) ∧
    countOf (setGroup seen g0 cNew) g0 = cNew ∧
    (∀ g, g ≠ g0 → countOf (setGroup seen g0 cNew) g = countOf seen g) := by
  have hkeys := setGroup_map_fst seen cNew hl
  refine ⟨by rw [hkeys]; exact hnd, ?_, ?_, ?_, ?_⟩
  · intro k hk
    rw [hkeys] at hk
    exact hsub k hk
  · intro g c hgc
    by_cases hg : g = g0
    · subst hg
      rw [lookupGroup_setGroup_self] at hgc
      have hce := Option.some.inj hgc
      omega
    · rw [lookupGroup_setGroup_ne seen cNew hg] at hgc
      exact hcnt g c hgc
  · exact countOf_eq_of_lookup (lookupGroup_setGroup_self seen _ cNew)
  · intro g hg
    unfold countOf
    rw [lookupGroup_setGroup_ne seen cNew hg]

theorem acceptedFor_cons_eq (cfg : DFConfig) (fetch : Nat → Nat) (s : DFState)
    (d : Nat) (rest : List Nat) (g : Nat) (b : Bool) (s' : DFState)
    (h : accepted cfg fetch s d = (b, s')) :
    acceptedFor cfg fetch s (d :: rest) g =
      (if b = true ∧ fetch d = g then 1 else 0) +
        acceptedFor cfg fetch s' rest g := by
  rw [acceptedFor_cons, h]

/-- Strict mode within tracking capacity: as long as every group in the
stream lies in a duplicate-free list `gs` of at most `_cutoff_max_groups`
keys, and the map's keys form a duplicate-free subset of `gs` with all
stored counts within `_max_per_group`, the number of future acceptances of
any group `g` plus its current stored count stays within `_max_per_group`. -/
theorem acceptedFor_le_aux {cfg : DFConfig} {fetch : Nat → Nat}
    (hstrict : cfg.cutoff_strict = true) (gs : List Nat)
    (hndgs : gs.Nodup) (hcap : gs.length ≤ cfg.cutoff_max_groups) :
    ∀ (docs : List Nat) (tc : Nat) (seen : List (Nat × Nat)),
      (∀ d ∈ docs, fetch d ∈ gs) →
      (seen.map Prod.fst).Nodup →
      (∀ k ∈ seen.map Prod.fst, k ∈ gs) →
      (∀ g c, lookupGroup seen g = some c → c ≤ cfg.max_per_group) →
      ∀ g, acceptedFor cfg fetch ⟨tc, seen⟩ docs g + countOf seen g ≤
        cfg.max_per_group := by
  intro docs
  induction docs with
  | nil =>
    intro tc seen _ _ _ hcnt g
    have h0 : acceptedFor cfg fetch ⟨tc, seen⟩ [] g = 0 := rfl
    rw [h0, Nat.zero_add]
    exact countOf_le hcnt g
  | cons d rest ih =>
    intro tc seen hdocs hndK hsubK hcnt g
    have hg0 : fetch d ∈ gs := hdocs d (List.mem_cons_self d rest)
    have hdocs' : ∀ x ∈ rest, fetch x ∈ gs :=
      fun x hx => hdocs x (List.mem_cons_of_mem d hx)
    by_cases ht : tc < cfg.max_total
    · by_cases hr : seen.length < cfg.cutoff_max_groups
      · obtain ⟨hndB, hsubB, hcntB, hcntEqB⟩ :=
          bracket_invariant cfg.max_per_group gs hg0 hndK hsubK hcnt
        by_cases hc0 : countOf seen (fetch d) < cfg.max_per_group
        · have hacc : accepted cfg fetch ⟨tc, seen⟩ d =
              (true, ⟨tc + 1, setGroup (bracket seen (fetch d)) (fetch d)
                (countOf seen (fetch d) + 1)⟩) := by
            rw [step_room fetch d ht hr]
            unfold conditional_add
            rw [if_pos hc0]
          have hlB : lookupGroup (bracket seen (fetch d)) (fetch d) =
              some (countOf seen (fetch d)) := by
            rw [lookupGroup_bracket]
            simp
          have hNew1 : countOf seen (fetch d) + 1 ≤ cfg.max_per_group := by
            omega
          obtain ⟨hndS, hsubS, hcntS, hselfS, hneS⟩ :=
            setGroup_invariant cfg.max_per_group gs hlB hndB hsubB hcntB hNew1
          have IH := ih (tc + 1)
            (setGroup (bracket seen (fetch d)) (fetch d)
              (countOf seen (fetch d) + 1))
            hdocs' hndS hsubS hcntS g
          rw [acceptedFor_cons_eq cfg fetch ⟨tc, seen⟩ d rest g _ _ hacc]
          by_cases hg : fetch d = g
          · rw [if_pos ⟨rfl, hg⟩]
            subst hg
            rw [hselfS] at IH
            omega
          · rw [if_neg (fun hh => hg hh.2)]
            rw [hneS g (fun hgg => hg hgg.symm), hcntEqB g] at IH
            omega
        · have hacc : accepted cfg fetch ⟨tc, seen⟩ d =
              (false, ⟨tc, bracket seen (fetch d)⟩) := by
            rw [step_room fetch d ht hr]
            unfold conditional_add
            rw [if_neg hc0]
          have IH := ih tc (bracket seen (fetch d)) hdocs' hndB hsubB hcntB g
          rw [acceptedFor_cons_eq cfg fetch ⟨tc, seen⟩ d rest g _ _ hacc,
            if_neg (by simp : ¬(false = true ∧ fetch d = g)), Nat.zero_add]
          rw [hcntEqB g] at IH
          exact IH
      · rcases hlk : lookupGroup seen (fetch d) with _ | c
        · exfalso
          have hg0k : fetch d ∉ seen.map Prod.fst :=
            (lookupGroup_eq_none_iff seen (fetch d)).1 hlk
          have hcons : (fetch d :: seen.map Prod.fst).Nodup :=
            List.nodup_cons.2 ⟨hg0k, hndK⟩
          have hsubcons : (fetch d :: seen.map Prod.fst) ⊆ gs := by
            intro a ha
            rcases List.mem_cons.1 ha with ha | ha
            · subst ha
              exact hg0
            · exact hsubK a ha
          have hlen := (hcons.subperm hsubcons).length_le
          simp [List.length_map] at hlen
          omega
        · by_cases hc1 : c < cfg.max_per_group
          · have hacc : accepted cfg fetch ⟨tc, seen⟩ d =
                (true, ⟨tc + 1, setGroup seen (fetch d) (c + 1)⟩) := by
              rw [step_full_strict_found fetch d ht hr hstrict hlk]
              unfold conditional_add
              rw [if_pos hc1]
            have hNew2 : c + 1 ≤ cfg.max_per_group := by
              omega
            obtain ⟨hndS, hsubS, hcntS, hselfS, hneS⟩ :=
              setGroup_invariant cfg.max_per_group gs hlk hndK hsubK hcnt hNew2
            have IH := ih (tc + 1) (setGroup seen (fetch d) (c + 1))
              hdocs' hndS hsubS hcntS g
            rw [acceptedFor_cons_eq cfg fetch ⟨tc, seen⟩ d rest g _ _ hacc]
            by_cases hg : fetch d = g
            · rw [if_pos ⟨rfl, hg⟩]
              subst hg
              rw [hselfS] at IH
              rw [countOf_eq_of_lookup hlk]
              omega
            · rw [if_neg (fun hh => hg hh.2)]
              rw [hneS g (fun hgg => hg hgg.symm)] at IH
              omega
          · have hacc : accepted cfg fetch ⟨tc, seen⟩ d =
                (false, ⟨tc, seen⟩) := by
              rw [step_full_strict_found fetch d ht hr hstrict hlk]
              unfold conditional_add
              rw [if_neg hc1]
            rw [acceptedFor_cons_eq cfg fetch ⟨tc, seen⟩ d rest g _ _ hacc,
              if_neg (by simp : ¬(false = true ∧ fetch d = g)), Nat.zero_add]
            exact ih tc seen hdocs' hndK hsubK hcnt g
    · have hacc : accepted cfg fetch ⟨tc, seen⟩ d = (false, ⟨tc, seen⟩) :=
        step_capped fetch d ht
      rw [acceptedFor_cons_eq cfg fetch ⟨tc, seen⟩ d rest g _ _ hacc,
        if_neg (by simp : ¬(false = true ∧ fetch d = g)), Nat.zero_add]
      exact ih tc seen hdocs' hndK hsubK hcnt g

/-- C2: with `_cutoff_strict = true` and at most `_cutoff_max_groups`
distinct group keys in the whole stream, no group collects more than
`_max_per_group` accepted documents. -/
theorem C2_per_group_cap (cfg : DFConfig) (fetch : Nat → Nat)
    (docs : List Nat) (g : Nat)
    (hstrict : cfg.cutoff_strict = true)
    (hdistinct : (docs.map fetch).dedup.length ≤ cfg.cutoff_max_groups) :
    acceptedFor cfg fetch initState docs g ≤ cfg.max_per_group := by
  have h := acceptedFor_le_aux hstrict ((docs.map fetch).dedup)
    (List.nodup_dedup _) hdistinct docs 0 []
    (fun x hx => List.mem_dedup.2 (List.mem_map_of_mem fetch hx))
    (by simp)
    (by simp)
    (by intro g' c' hc'; simp [lookupGroup] at hc')
    g
  simpa [countOf, lookupGroup, initState] using h

theorem C2_per_group_cap_w :
    acceptedFor ⟨10, 2, 2, true⟩ id initState [0, 0, 0, 1, 1] 0 ≤ 2 :=
  C2_per_group_cap ⟨10, 2, 2, true⟩ id [0, 0, 0, 1, 1] 0 rfl (by decide)

end Diversity
